import Mathlib

/-!
Verification of the streaming conversational pipeline of the quizmaster
application.  The definitions below are shallow embeddings of the
TypeScript source: `streamChat`'s line-framing loop and
`sanitizeMessageContent` (src/services/aiClient.ts), and the delivery
batcher, retry, load and send logic of the chat drawer component
(src/components/ChatDrawer.tsx).  Text is modelled as `List Char` where
line splitting matters and as lists of UTF-16 code units (`List Nat`)
where surrogate handling matters; the browser's streaming `TextDecoder`
reassembles code points across byte boundaries, so stream chunks are
modelled as character sequences whose concatenation is the decoded text.
-/

namespace QuizPipeline

/-! ## Frame parser (streamChat read loop, aiClient.ts lines 182-214)

The loop keeps a carry-over `buffer`, appends each decoded chunk, splits
on the newline character, pops the last (possibly incomplete) piece back
into the buffer and processes every complete line: lines starting with
the fixed marker `data: ` either terminate the loop (payload `[DONE]`)
or are JSON-parsed; parse failures are skipped and non-empty `content`
fields are emitted as deltas.  `JSON.parse` plus the
`json.choices?.[0]?.delta?.content || ''` extraction is an external
primitive, abstracted as a function `extract` returning `none` on parse
failure and the extracted content (possibly empty) on success. -/

/-- Split a character list on the newline character, mirroring
JavaScript's `buffer.split('\n')`: always returns at least one piece;
pieces do not contain the newline character. -/
def splitNl : List Char → List (List Char)
  | [] => [[]]
  | c :: cs =>
    if c = '\n' then [] :: splitNl cs
    else
      match splitNl cs with
      | [] => [[c]]
      | p :: ps => (c :: p) :: ps

theorem splitNl_ne_nil (l : List Char) : splitNl l ≠ [] := by
  cases l with
  | nil => simp [splitNl]
  | cons c cs =>
    simp only [splitNl]
    by_cases h : c = '\n'
    · simp [h]
    · simp only [h, if_false]
      cases hcs : splitNl cs <;> simp

/-- The last piece produced by `splitNl` contains no newline. -/
theorem splitNl_getLastD_no_nl (l : List Char) :
    '\n' ∉ (splitNl l).getLastD [] := by
  induction l with
  | nil => simp [splitNl]
  | cons c cs ih =>
    simp only [splitNl]
    by_cases h : c = '\n'
    · simp only [h, if_true, List.getLastD_cons]
      cases hcs : splitNl cs with
      | nil => exact absurd hcs (splitNl_ne_nil cs)
      | cons p ps =>
        rw [hcs] at ih
        simpa [List.getLastD] using ih
    · simp only [h, if_false]
      cases hcs : splitNl cs with
      | nil => exact absurd hcs (splitNl_ne_nil cs)
      | cons p ps =>
        rw [hcs] at ih
        cases ps with
        | nil =>
          simp only [List.getLastD] at ih ⊢
          intro hmem
          rcases List.mem_cons.mp hmem with hc | hp
          · exact h hc.symm
          · exact ih hp
        | cons q qs => simpa [List.getLastD] using ih

/-- A newline-free list splits into the single piece it is. -/
theorem splitNl_of_no_nl (l : List Char) (h : '\n' ∉ l) :
    splitNl l = [l] := by
  induction l with
  | nil => simp [splitNl]
  | cons c cs ih =>
    have hc : c ≠ '\n' := fun hc => h (hc ▸ List.mem_cons_self c cs)
    have hcs : '\n' ∉ cs := fun hm => h (List.mem_cons_of_mem c hm)
    simp [splitNl, hc, ih hcs]

theorem splitNl_cons_nl (cs : List Char) :
    splitNl ('\n' :: cs) = [] :: splitNl cs := by
  simp [splitNl]

theorem splitNl_cons_of_ne {c : Char} (h : c ≠ '\n') {cs : List Char}
    {p : List Char} {ps : List (List Char)} (hcs : splitNl cs = p :: ps) :
    splitNl (c :: cs) = (c :: p) :: ps := by
  simp [splitNl, h, hcs]

theorem splitNl_dest (cs : List Char) :
    ∃ p ps, splitNl cs = p :: ps := by
  cases hcs : splitNl cs with
  | nil => exact absurd hcs (splitNl_ne_nil cs)
  | cons p ps => exact ⟨p, ps, rfl⟩

/-- Splitting a concatenation: the pieces of `a ++ b` are the complete
pieces of `a` followed by the pieces of the carry-over (last piece of
`a`) prepended to `b`.  This is the algebra behind carrying the
incomplete tail across chunk boundaries. -/
theorem splitNl_append (a b : List Char) :
    splitNl (a ++ b) =
      (splitNl a).dropLast ++ splitNl ((splitNl a).getLastD [] ++ b) := by
  induction a with
  | nil => simp [splitNl]
  | cons c cs ih =>
    obtain ⟨p, ps, hcs⟩ := splitNl_dest cs
    rw [hcs] at ih
    by_cases h : c = '\n'
    · subst h
      rw [List.cons_append, splitNl_cons_nl, splitNl_cons_nl, ih, hcs]
      cases ps with
      | nil => simp [List.getLastD_cons]
      | cons p2 ps2 => simp [List.getLastD_cons]
    · cases ps with
      | nil =>
        obtain ⟨q, qs, hq'⟩ := splitNl_dest (p ++ b)
        have hcsb : splitNl (cs ++ b) = q :: qs := by
          rw [ih]
          simpa only [List.dropLast_single, List.nil_append,
            List.getLastD_cons, List.getLastD_nil] using hq'
        rw [List.cons_append, splitNl_cons_of_ne h hcsb,
          splitNl_cons_of_ne h hcs]
        simp only [List.dropLast_single, List.nil_append, List.getLastD_cons,
          List.getLastD_nil]
        rw [List.cons_append, splitNl_cons_of_ne h hq']
      | cons p2 ps2 =>
        have hcsb : splitNl (cs ++ b) =
            p :: ((p2 :: ps2).dropLast ++
              splitNl (ps2.getLastD p2 ++ b)) := by
          rw [ih]
          simp only [List.dropLast_cons₂, List.getLastD_cons,
            List.cons_append]
        rw [List.cons_append, splitNl_cons_of_ne h hcsb,
          splitNl_cons_of_ne h hcs]
        simp only [List.dropLast_cons₂, List.getLastD_cons,
          List.cons_append]

/-- The fixed line marker `data: ` (six characters). -/
def dataHead : List Char := ['d', 'a', 't', 'a', ':', ' ']

/-- The termination sentinel payload `[DONE]`. -/
def doneTok : List Char := ['[', 'D', 'O', 'N', 'E', ']']

/-- What processing one complete line does. -/
inductive LineAct where
  | terminate
  | emit (d : List Char)
  | skip
deriving DecidableEq

/-- One complete line, as in the source: lines not starting with
`data: ` are ignored; payload `[DONE]` ends the loop; otherwise the
payload is handed to `JSON.parse` (abstracted as `extract`, `none` on
parse failure) and a present, non-empty `content` is emitted. -/
def lineAct (extract : List Char → Option (List Char)) (line : List Char) :
    LineAct :=
  if line.take 6 = dataHead then
    let d := line.drop 6
    if d = doneTok then .terminate
    else
      match extract d with
      | some delta => if delta = [] then .skip else .emit delta
      | none => .skip
  else .skip

/-- Process a list of complete lines in order, accumulating emitted
deltas and stopping at the first sentinel (the source `return`s there). -/
def runLines (extract : List Char → Option (List Char))
    (acc : List (List Char)) : List (List Char) → List (List Char) × Bool
  | [] => (acc, false)
  | l :: ls =>
    match lineAct extract l with
    | .terminate => (acc, true)
    | .emit d => runLines extract (acc ++ [d]) ls
    | .skip => runLines extract acc ls

/-- Parser state: the carry-over `buffer` of the source loop, the deltas
emitted so far, and whether the sentinel ended the loop. -/
structure PState where
  tail : List Char
  out : List (List Char)
  finished : Bool
deriving DecidableEq

def initPState : PState := ⟨[], [], false⟩

/-- One iteration of the read loop on a decoded chunk: append to the
carry-over, split on newlines, keep the last piece as the new
carry-over and process the complete lines.  After the sentinel the loop
has returned, so further chunks are never read. -/
def feedChunk (extract : List Char → Option (List Char)) (st : PState)
    (chunk : List Char) : PState :=
  if st.finished then st
  else
    let pieces := splitNl (st.tail ++ chunk)
    match runLines extract st.out pieces.dropLast with
    | (o, true) => ⟨[], o, true⟩
    | (o, false) => ⟨pieces.getLastD [], o, false⟩

/-- Run the whole stream, one decoded chunk at a time. -/
def runStream (extract : List Char → Option (List Char))
    (chunks : List (List Char)) : PState :=
  chunks.foldl (feedChunk extract) initPState

/-- Observable outcome of a stream: the deltas emitted, in order, and
whether the sentinel was seen.  The leftover carry-over is dropped: on
stream end an incomplete trailing frame is discarded. -/
def streamResult (extract : List Char → Option (List Char))
    (chunks : List (List Char)) : List (List Char) × Bool :=
  ((runStream extract chunks).out, (runStream extract chunks).finished)

theorem runLines_append (extract : List Char → Option (List Char))
    (acc : List (List Char)) (l1 l2 : List (List Char)) :
    runLines extract acc (l1 ++ l2) =
      match runLines extract acc l1 with
      | (o, true) => (o, true)
      | (o, false) => runLines extract o l2 := by
  induction l1 generalizing acc with
  | nil => simp [runLines]
  | cons l ls ih =>
    simp only [List.cons_append, runLines]
    cases lineAct extract l with
    | terminate => simp
    | emit d => exact ih (acc ++ [d])
    | skip => exact ih acc

theorem getLastD_append_right {α : Type} (xs : List α) {ys : List α}
    (d : α) (h : ys ≠ []) :
    (xs ++ ys).getLastD d = ys.getLastD d := by
  rw [List.getLastD_eq_getLast?, List.getLastD_eq_getLast?,
    List.getLast?_append_of_ne_nil xs h]

/-- Feeding two chunks one after the other is the same as feeding their
concatenation: the carry-over makes chunk boundaries invisible. -/
theorem feedChunk_append (extract : List Char → Option (List Char))
    (st : PState) (a b : List Char) :
    feedChunk extract (feedChunk extract st a) b =
      feedChunk extract st (a ++ b) := by
  by_cases hfin : st.finished = true
  · simp [feedChunk, hfin]
  · obtain ⟨tl, out, fin⟩ := st
    simp only at hfin
    have hfin' : fin = false := by
      cases fin
      · rfl
      · exact absurd rfl hfin
    subst hfin'
    have hsplit : splitNl (tl ++ (a ++ b)) =
        (splitNl (tl ++ a)).dropLast ++
          splitNl ((splitNl (tl ++ a)).getLastD [] ++ b) := by
      rw [← List.append_assoc, splitNl_append]
    have hne : splitNl ((splitNl (tl ++ a)).getLastD [] ++ b) ≠ [] :=
      splitNl_ne_nil _
    cases hrl1 : runLines extract out (splitNl (tl ++ a)).dropLast with
    | mk o1 f1 =>
      cases f1 with
      | true =>
        have hL : feedChunk extract ⟨tl, out, false⟩ a =
            ⟨[], o1, true⟩ := by
          simp [feedChunk, hrl1]
        have hrl : runLines extract out
            (splitNl (tl ++ (a ++ b))).dropLast = (o1, true) := by
          rw [hsplit, List.dropLast_append_of_ne_nil _ hne,
            runLines_append, hrl1]
        rw [hL]
        simp [feedChunk, hrl]
      | false =>
        have hL : feedChunk extract ⟨tl, out, false⟩ a =
            ⟨(splitNl (tl ++ a)).getLastD [], o1, false⟩ := by
          simp [feedChunk, hrl1]
        have hdrop : (splitNl (tl ++ (a ++ b))).dropLast =
            (splitNl (tl ++ a)).dropLast ++
              (splitNl ((splitNl (tl ++ a)).getLastD [] ++ b)).dropLast := by
          rw [hsplit, List.dropLast_append_of_ne_nil _ hne]
        have hlastp : (splitNl (tl ++ (a ++ b))).getLastD [] =
            (splitNl ((splitNl (tl ++ a)).getLastD [] ++ b)).getLastD [] := by
          rw [hsplit, getLastD_append_right _ _ hne]
        rw [hL]
        simp only [feedChunk, Bool.false_eq_true, if_false]
        rw [hdrop, runLines_append, hrl1, hlastp]

theorem foldl_feedChunk (extract : List Char → Option (List Char))
    (cs : List (List Char)) :
    ∀ (st : PState) (a : List Char),
      cs.foldl (feedChunk extract) (feedChunk extract st a) =
        feedChunk extract st (a ++ cs.flatten) := by
  induction cs with
  | nil => intro st a; simp [List.foldl]
  | cons c cs ih =>
    intro st a
    simp only [List.foldl, List.flatten_cons]
    rw [ih (feedChunk extract st a) c, feedChunk_append,
      ← List.append_assoc]

theorem runStream_flatten (extract : List Char → Option (List Char))
    (chunks : List (List Char)) :
    runStream extract chunks = runStream extract [chunks.flatten] := by
  cases chunks with
  | nil =>
    show initPState = feedChunk extract initPState []
    rfl
  | cons c cs =>
    show (c :: cs).foldl (feedChunk extract) initPState =
      feedChunk extract initPState (c :: cs).flatten
    rw [List.foldl_cons, foldl_feedChunk, List.flatten_cons]


theorem feedChunk_tail_no_nl (extract : List Char → Option (List Char))
    (st : PState) (c : List Char) (h : '\n' ∉ st.tail) :
    '\n' ∉ (feedChunk extract st c).tail := by
  by_cases hfin : st.finished = true
  · simpa [feedChunk, hfin] using h
  · simp only [feedChunk, hfin, if_false]
    cases hrl : runLines extract st.out (splitNl (st.tail ++ c)).dropLast with
    | mk o f =>
      cases f with
      | true => simp
      | false => simpa using splitNl_getLastD_no_nl (st.tail ++ c)

theorem runStream_tail_no_nl (extract : List Char → Option (List Char))
    (chunks : List (List Char)) :
    '\n' ∉ (runStream extract chunks).tail := by
  have key : ∀ (cs : List (List Char)) (st : PState), '\n' ∉ st.tail →
      '\n' ∉ (cs.foldl (feedChunk extract) st).tail := by
    intro cs
    induction cs with
    | nil => intro st h; simpa using h
    | cons c cs ih =>
      intro st h
      exact ih _ (feedChunk_tail_no_nl extract st c h)
  exact key chunks initPState (by simp [initPState])

/-- Feeding a newline-free fragment adds no complete line: the emitted
deltas and the terminal flag are untouched (the fragment only grows the
carry-over, which the observable result discards). -/
theorem feedChunk_no_nl_obs (extract : List Char → Option (List Char))
    (st : PState) (t : List Char) (hst : '\n' ∉ st.tail)
    (ht : '\n' ∉ t) :
    (feedChunk extract st t).out = st.out ∧
      (feedChunk extract st t).finished = st.finished := by
  by_cases hfin : st.finished = true
  · simp [feedChunk, hfin]
  · have hno : '\n' ∉ st.tail ++ t := by
      intro hmem
      rcases List.mem_append.mp hmem with h1 | h2
      · exact hst h1
      · exact ht h2
    have hsp : splitNl (st.tail ++ t) = [st.tail ++ t] :=
      splitNl_of_no_nl _ hno
    simp [feedChunk, hfin, hsp, runLines]


/-- C1: for every protocol line sequence and every chunking of the
stream, the Frame Parser emits the same deltas and reaches the same
terminal outcome as when the whole stream arrives as one chunk; the last
incomplete piece of each chunk is carried over as a tail, and on stream
end a non-empty leftover tail (a trailing newline-free fragment) is
discarded rather than processed. -/
theorem frame_parser_chunk_independent
    (extract : List Char → Option (List Char))
    (chunks : List (List Char)) :
    streamResult extract chunks = streamResult extract [chunks.flatten] ∧
      ∀ t : List Char, '\n' ∉ t →
        streamResult extract (chunks ++ [t]) =
          streamResult extract chunks := by
  constructor
  · show ((runStream extract chunks).out, (runStream extract chunks).finished)
      = _
    rw [runStream_flatten]
    rfl
  · intro t ht
    have hfold : runStream extract (chunks ++ [t]) =
        feedChunk extract (runStream extract chunks) t := by
      show (chunks ++ [t]).foldl (feedChunk extract) initPState = _
      rw [List.foldl_append]
      rfl
    have hobs := feedChunk_no_nl_obs extract (runStream extract chunks) t
      (runStream_tail_no_nl extract chunks) ht
    show ((runStream extract (chunks ++ [t])).out,
        (runStream extract (chunks ++ [t])).finished) = _
    rw [hfold, hobs.1, hobs.2]
    rfl

/-- Witness for C1 at a concrete stream split at awkward offsets. -/
theorem frame_parser_chunk_independent_witness :
    ('\n' ∉ ['x', 'y']) ∧
      streamResult (fun _ => none)
          ([['d', 'a'], ['t', 'a', ':', ' ', 'h', '\n', 'q']] ++ [['x', 'y']]) =
        streamResult (fun _ => none)
          [['d', 'a'], ['t', 'a', ':', ' ', 'h', '\n', 'q']] ∧
      streamResult (fun _ => none)
          [['d', 'a'], ['t', 'a', ':', ' ', 'h', '\n', 'q']] =
        streamResult (fun _ => none)
          [[['d', 'a'], ['t', 'a', ':', ' ', 'h', '\n', 'q']].flatten] :=
  ⟨by decide,
    (frame_parser_chunk_independent (fun _ => none)
      [['d', 'a'], ['t', 'a', ':', ' ', 'h', '\n', 'q']]).2 _ (by decide),
    (frame_parser_chunk_independent (fun _ => none)
      [['d', 'a'], ['t', 'a', ':', ' ', 'h', '\n', 'q']]).1⟩


theorem splitNl_line (a r : List Char) (h : '\n' ∉ a) :
    splitNl (a ++ '\n' :: r) = a :: splitNl r := by
  induction a with
  | nil => exact splitNl_cons_nl r
  | cons c cs ih =>
    have hc : c ≠ '\n' := fun hc => h (hc ▸ List.mem_cons_self c cs)
    have hcs : '\n' ∉ cs := fun hm => h (List.mem_cons_of_mem c hm)
    rw [List.cons_append, splitNl_cons_of_ne hc (ih hcs)]

theorem lineAct_data (extract : List Char → Option (List Char))
    (x : List Char) :
    lineAct extract (dataHead ++ x) =
      if x = doneTok then .terminate
      else
        match extract x with
        | some delta => if delta = [] then LineAct.skip else .emit delta
        | none => .skip := by
  have h1 : (dataHead ++ x).take 6 = dataHead := rfl
  have h2 : (dataHead ++ x).drop 6 = x := rfl
  simp only [lineAct, h1, h2, if_pos rfl, if_true, eq_self_iff_true]

/-- One protocol line as the provider writes it. -/
def mkLine (payload : List Char) : List Char := dataHead ++ payload ++ ['\n']

theorem no_nl_data (x : List Char) (hx : '\n' ∉ x) :
    '\n' ∉ dataHead ++ x := by
  intro hm
  rcases List.mem_append.mp hm with h1 | h2
  · revert h1
    decide
  · exact hx h2

/-- C9: a line whose payload fails to parse is skipped and the loop
continues: a stream of a well-formed delta line, an invalid line, a
second well-formed delta line and the sentinel finishes successfully
with exactly the two well-formed deltas emitted in order. -/
theorem malformed_frame_skipped (extract : List Char → Option (List Char))
    (p1 pb p2 d1 d2 : List Char)
    (h1 : extract p1 = some d1) (hb : extract pb = none)
    (h2 : extract p2 = some d2)
    (hd1 : d1 ≠ []) (hd2 : d2 ≠ [])
    (hn1 : '\n' ∉ p1) (hnb : '\n' ∉ pb) (hn2 : '\n' ∉ p2)
    (ht1 : p1 ≠ doneTok) (htb : pb ≠ doneTok) (ht2 : p2 ≠ doneTok) :
    streamResult extract
        [mkLine p1 ++ mkLine pb ++ mkLine p2 ++ mkLine doneTok] =
      ([d1, d2], true) := by
  have hchunk : mkLine p1 ++ mkLine pb ++ mkLine p2 ++ mkLine doneTok =
      (dataHead ++ p1) ++ '\n' :: ((dataHead ++ pb) ++ '\n' ::
        ((dataHead ++ p2) ++ '\n' :: ((dataHead ++ doneTok) ++
          '\n' :: []))) := by
    simp [mkLine, List.append_assoc]
  have hsp : splitNl (mkLine p1 ++ mkLine pb ++ mkLine p2 ++
      mkLine doneTok) =
      [dataHead ++ p1, dataHead ++ pb, dataHead ++ p2,
        dataHead ++ doneTok, []] := by
    rw [hchunk, splitNl_line _ _ (no_nl_data p1 hn1),
      splitNl_line _ _ (no_nl_data pb hnb),
      splitNl_line _ _ (no_nl_data p2 hn2),
      splitNl_line _ _ (no_nl_data doneTok (by decide))]
    rfl
  have e1 : lineAct extract (dataHead ++ p1) = .emit d1 := by
    rw [lineAct_data]
    simp [ht1, h1, hd1]
  have eb : lineAct extract (dataHead ++ pb) = .skip := by
    rw [lineAct_data]
    simp [htb, hb]
  have e2 : lineAct extract (dataHead ++ p2) = .emit d2 := by
    rw [lineAct_data]
    simp [ht2, h2, hd2]
  have e4 : lineAct extract (dataHead ++ doneTok) = .terminate := by
    rw [lineAct_data]
    simp
  have hrl : runLines extract []
      [dataHead ++ p1, dataHead ++ pb, dataHead ++ p2,
        dataHead ++ doneTok] = ([d1, d2], true) := by
    simp [runLines, e1, eb, e2, e4]
  have hrun : runStream extract
      [mkLine p1 ++ mkLine pb ++ mkLine p2 ++ mkLine doneTok] =
      ⟨[], [d1, d2], true⟩ := by
    show feedChunk extract initPState
      (mkLine p1 ++ mkLine pb ++ mkLine p2 ++ mkLine doneTok) = _
    simp only [feedChunk, initPState, Bool.false_eq_true, if_false,
      List.nil_append, hsp]
    have hdl : ([dataHead ++ p1, dataHead ++ pb, dataHead ++ p2,
        dataHead ++ doneTok, ([] : List Char)]).dropLast =
        [dataHead ++ p1, dataHead ++ pb, dataHead ++ p2,
          dataHead ++ doneTok] := rfl
    rw [hdl, hrl]
  show ((runStream extract _).out, (runStream extract _).finished) = _
  rw [hrun]

/-- Witness for C9 at a concrete malformed middle line. -/
theorem malformed_frame_skipped_witness :
    streamResult
        (fun s => if s = ['A'] then some ['H', 'i']
          else if s = ['B'] then some ['y', 'o'] else none)
        [mkLine ['A'] ++ mkLine ['J'] ++ mkLine ['B'] ++ mkLine doneTok] =
      ([['H', 'i'], ['y', 'o']], true) :=
  malformed_frame_skipped
    (fun s => if s = ['A'] then some ['H', 'i']
      else if s = ['B'] then some ['y', 'o'] else none)
    ['A'] ['J'] ['B'] ['H', 'i'] ['y', 'o']
    (by decide) (by decide) (by decide) (by decide) (by decide)
    (by decide) (by decide) (by decide) (by decide) (by decide) (by decide)


/-! ## Delivery batcher (ChatDrawer.tsx, delta mode, lines 1119-1165)

`appendStreamDelta` appends each incoming delta to `streamBufferRef` and
schedules one `requestAnimationFrame` flush if none is pending;
`flushStreamBuffer` drains the buffer into the trailing streaming
message (stripping the trailing progress marker, appending the drained
text, re-appending the marker) and clears the schedule.  The state below
is the buffer, the schedule flag and the streaming message text; the
marker is the glyph the source appends while streaming. -/

/-- The streaming progress marker glyph. -/
def mark : Char := '●'

/-- Batcher state: `streamBufferRef`, `streamUpdateTimerRef` (as a
flag), and the text of the trailing streaming assistant message. -/
structure BatchState where
  buffer : List Char
  scheduled : Bool
  msgText : List Char
deriving DecidableEq

/-- The freshly created streaming message has text `●`. -/
def initBatch : BatchState := ⟨[], false, [mark]⟩

/-- `text.endsWith('●') ? text.slice(0, -1) : text`. -/
def stripMark (t : List Char) : List Char :=
  if t.getLastD ' ' = mark then t.dropLast else t

/-- `flushStreamBuffer`: when the buffer is non-empty, drain it into the
streaming message (dropping the trailing marker, appending the drained
delta and a fresh marker); then clear any scheduled flush. -/
def flushStreamBuffer (st : BatchState) : BatchState :=
  let st1 :=
    if st.buffer = [] then st
    else
      { buffer := [], scheduled := st.scheduled,
        msgText := stripMark st.msgText ++ st.buffer ++ [mark] }
  { st1 with scheduled := false }

/-- `appendStreamDelta`: append the delta to the buffer and schedule a
flush for the next rendering tick when none is pending. -/
def appendStreamDelta (st : BatchState) (d : List Char) : BatchState :=
  let st1 : BatchState := { st with buffer := st.buffer ++ d }
  if st1.scheduled then st1 else { st1 with scheduled := true }

/-- An event seen by the batcher: a delta arriving, or a flush firing
(the scheduled animation-frame callback or an explicit flush). -/
inductive BEvent where
  | delta (d : List Char)
  | flush
deriving DecidableEq

def batchStep (st : BatchState) : BEvent → BatchState
  | .delta d => appendStreamDelta st d
  | .flush => flushStreamBuffer st

def runBatch (evs : List BEvent) : BatchState :=
  evs.foldl batchStep initBatch

/-- The concatenation of all deltas fed in, in arrival order. -/
def inputsOf (evs : List BEvent) : List Char :=
  (evs.map fun e => match e with | .delta d => d | .flush => []).flatten

theorem stripMark_concat (x : List Char) :
    stripMark (x ++ [mark]) = x := by
  rw [stripMark, if_pos, List.dropLast_concat]
  rw [List.getLastD_eq_getLast?, List.getLast?_concat]
  rfl

theorem flushStreamBuffer_buffer (st : BatchState) :
    (flushStreamBuffer st).buffer = [] := by
  by_cases h : st.buffer = []
  · simp [flushStreamBuffer, h]
  · simp [flushStreamBuffer, h]

theorem flushStreamBuffer_scheduled (st : BatchState) :
    (flushStreamBuffer st).scheduled = false := by
  by_cases h : st.buffer = []
  · simp [flushStreamBuffer, h]
  · simp [flushStreamBuffer, h]

/-- Invariant carried through any event interleaving: the streaming
message is the flushed text followed by the marker, and flushed text
plus pending buffer is exactly the input concatenation so far. -/
theorem runBatch_inv (evs : List BEvent) :
    ∀ (st : BatchState) (x : List Char), st.msgText = x ++ [mark] →
      ∃ y, (evs.foldl batchStep st).msgText = y ++ [mark] ∧
        y ++ (evs.foldl batchStep st).buffer = x ++ st.buffer ++
          inputsOf evs := by
  induction evs with
  | nil =>
    intro st x hx
    exact ⟨x, hx, by simp [inputsOf]⟩
  | cons e evs ih =>
    intro st x hx
    cases e with
    | delta d =>
      have hstep : batchStep st (.delta d) =
          if ({ st with buffer := st.buffer ++ d } : BatchState).scheduled
          then { st with buffer := st.buffer ++ d }
          else { { st with buffer := st.buffer ++ d } with
            scheduled := true } := rfl
      by_cases hs : st.scheduled = true
      · obtain ⟨y, hy, hsum⟩ := ih { st with buffer := st.buffer ++ d } x hx
        refine ⟨y, ?_, ?_⟩
        · simpa [List.foldl, batchStep, appendStreamDelta, hs] using hy
        · have : inputsOf (BEvent.delta d :: evs) = d ++ inputsOf evs := by
            simp [inputsOf]
          rw [List.foldl_cons]
          have hrw : batchStep st (.delta d) =
              { st with buffer := st.buffer ++ d } := by
            simp [batchStep, appendStreamDelta, hs]
          rw [hrw, this]
          simpa [List.append_assoc] using hsum
      · obtain ⟨y, hy, hsum⟩ :=
          ih { st with buffer := st.buffer ++ d, scheduled := true } x hx
        refine ⟨y, ?_, ?_⟩
        · have hrw : batchStep st (.delta d) =
              { st with buffer := st.buffer ++ d, scheduled := true } := by
            simp [batchStep, appendStreamDelta, hs]
          rw [List.foldl_cons, hrw]
          exact hy
        · have hrw : batchStep st (.delta d) =
              { st with buffer := st.buffer ++ d, scheduled := true } := by
            simp [batchStep, appendStreamDelta, hs]
          have hinp : inputsOf (BEvent.delta d :: evs) =
              d ++ inputsOf evs := by
            simp [inputsOf]
          rw [List.foldl_cons, hrw, hinp]
          simpa [List.append_assoc] using hsum
    | flush =>
      by_cases hbuf : st.buffer = []
      · have hrw : batchStep st .flush =
            { st with scheduled := false } := by
          simp [batchStep, flushStreamBuffer, hbuf]
        obtain ⟨y, hy, hsum⟩ := ih { st with scheduled := false } x hx
        refine ⟨y, ?_, ?_⟩
        · rw [List.foldl_cons, hrw]
          exact hy
        · have hinp : inputsOf (BEvent.flush :: evs) = inputsOf evs := by
            simp [inputsOf]
          rw [List.foldl_cons, hrw, hinp]
          simpa [hbuf] using hsum
      · have hrw : batchStep st .flush =
            ⟨[], false, stripMark st.msgText ++ st.buffer ++ [mark]⟩ := by
          simp [batchStep, flushStreamBuffer, hbuf]
        have hmsg : stripMark st.msgText ++ st.buffer ++ [mark] =
            (x ++ st.buffer) ++ [mark] := by
          rw [hx, stripMark_concat]
        obtain ⟨y, hy, hsum⟩ :=
          ih ⟨[], false, stripMark st.msgText ++ st.buffer ++ [mark]⟩
            (x ++ st.buffer) (by simpa using hmsg)
        refine ⟨y, ?_, ?_⟩
        · rw [List.foldl_cons, hrw]
          exact hy
        · have hinp : inputsOf (BEvent.flush :: evs) = inputsOf evs := by
            simp [inputsOf]
          rw [List.foldl_cons, hrw, hinp]
          simpa [List.append_assoc] using hsum

/-- C2: in delta mode, for every delta sequence and every interleaving
of flushes, the total text flushed into the streaming message equals
the concatenation of all input deltas in arrival order — nothing
dropped, duplicated or reordered — and after a flush the buffer is
empty with no flush scheduled. -/
theorem batcher_conservation (evs : List BEvent) :
    stripMark (flushStreamBuffer (runBatch evs)).msgText = inputsOf evs ∧
      (flushStreamBuffer (runBatch evs)).buffer = [] ∧
      (flushStreamBuffer (runBatch evs)).scheduled = false := by
  obtain ⟨y, hy, hsum⟩ := runBatch_inv evs initBatch [] rfl
  refine ⟨?_, flushStreamBuffer_buffer _, flushStreamBuffer_scheduled _⟩
  show stripMark (flushStreamBuffer (evs.foldl batchStep initBatch)).msgText
    = inputsOf evs
  by_cases hbuf : (evs.foldl batchStep initBatch).buffer = []
  · have : (flushStreamBuffer (evs.foldl batchStep initBatch)).msgText =
        (evs.foldl batchStep initBatch).msgText := by
      simp [flushStreamBuffer, hbuf]
    rw [this, hy, stripMark_concat]
    have := hsum
    rw [hbuf] at this
    simpa using this
  · have : (flushStreamBuffer (evs.foldl batchStep initBatch)).msgText =
        stripMark (evs.foldl batchStep initBatch).msgText ++
          (evs.foldl batchStep initBatch).buffer ++ [mark] := by
      simp [flushStreamBuffer, hbuf]
    rw [this, stripMark_concat, hy, stripMark_concat]
    simpa using hsum


/-! ## Sanitizer (sanitizeMessageContent, aiClient.ts lines 44-74)

Strings are modelled as lists of UTF-16 code units (`List Nat`), since
the transformation is defined on code units and lone surrogates are not
representable as Lean `Char`s.  The normal path removes the progress
marker, runs the text through `TextEncoder`/`TextDecoder` — which maps
every unpaired surrogate code unit to U+FFFD and keeps valid pairs —
and then deletes every code unit in the surrogate range (a JavaScript
regex without the `u` flag matches individual code units, so both
halves of a valid pair are deleted too).  The catch branch removes the
marker, all surrogate-range units and all control characters. -/

def isSurrogate (u : Nat) : Bool := 0xD800 ≤ u && u ≤ 0xDFFF

def isHighSurr (u : Nat) : Bool := 0xD800 ≤ u && u ≤ 0xDBFF

def isLowSurr (u : Nat) : Bool := 0xDC00 ≤ u && u ≤ 0xDFFF

/-- The progress-marker glyph `●` as a code unit. -/
def glyphDot : Nat := 0x25CF

/-- The replacement character U+FFFD produced by the UTF-8 round trip. -/
def replChar : Nat := 0xFFFD

/-- `content.replace(/●/g, '')`. -/
def removeDots (s : List Nat) : List Nat :=
  s.filter fun u => !(u == glyphDot)

/-- `cleaned.replace(/[\uD800-\uDFFF]/g, '')`: deletes every surrogate
code unit, paired or not. -/
def removeSurrogates (s : List Nat) : List Nat :=
  s.filter fun u => !(isSurrogate u)

/-- `content.replace(/[\u0000-\u001F\u007F-\u009F]/g, '')` of the
catch branch. -/
def removeControls (s : List Nat) : List Nat :=
  s.filter fun u => !((u ≤ 0x1F) || (0x7F ≤ u && u ≤ 0x9F))

/-- The `TextEncoder`/`TextDecoder('utf-8', fatal:false)` round trip:
valid surrogate pairs survive unchanged, every unpaired surrogate code
unit becomes U+FFFD, everything else is copied. -/
def utf16RoundTrip : List Nat → List Nat
  | [] => []
  | [u] => if isSurrogate u then [replChar] else [u]
  | u :: v :: rest =>
    if isHighSurr u then
      if isLowSurr v then u :: v :: utf16RoundTrip rest
      else replChar :: utf16RoundTrip (v :: rest)
    else if isLowSurr u then replChar :: utf16RoundTrip (v :: rest)
    else u :: utf16RoundTrip (v :: rest)

/-- The normal (try) path of `sanitizeMessageContent`. -/
def sanitizeMessageContent (s : List Nat) : List Nat :=
  removeSurrogates (utf16RoundTrip (removeDots s))

/-- The conservative catch-branch fallback of `sanitizeMessageContent`. -/
def sanitizeFallback (s : List Nat) : List Nat :=
  removeControls (removeSurrogates (removeDots s))

theorem mem_utf16RoundTrip :
    ∀ (s : List Nat) (u : Nat), u ∈ utf16RoundTrip s →
      u ∈ s ∨ u = replChar
  | [], u, h => by simp [utf16RoundTrip] at h
  | [v], u, h => by
    by_cases hs : isSurrogate v = true
    · simp [utf16RoundTrip, hs] at h
      exact Or.inr h
    · simp [utf16RoundTrip, hs] at h
      exact Or.inl (by simp [h])
  | v :: w :: rest, u, h => by
    by_cases hv : isHighSurr v = true
    · by_cases hw : isLowSurr w = true
      · simp only [utf16RoundTrip, hv, hw, if_true] at h
        rcases List.mem_cons.mp h with h1 | h'
        · exact Or.inl (by simp [h1])
        · rcases List.mem_cons.mp h' with h2 | h''
          · exact Or.inl (by simp [h2])
          · rcases mem_utf16RoundTrip rest u h'' with hm | he
            · exact Or.inl (by simp [hm])
            · exact Or.inr he
      · simp only [utf16RoundTrip, hv, hw, if_true, if_false] at h
        rcases List.mem_cons.mp h with h1 | h'
        · exact Or.inr h1
        · rcases mem_utf16RoundTrip (w :: rest) u h' with hm | he
          · exact Or.inl (List.mem_cons_of_mem v hm)
          · exact Or.inr he
    · by_cases hlo : isLowSurr v = true
      · simp only [utf16RoundTrip, hv, hlo, if_true, if_false] at h
        rcases List.mem_cons.mp h with h1 | h'
        · exact Or.inr h1
        · rcases mem_utf16RoundTrip (w :: rest) u h' with hm | he
          · exact Or.inl (List.mem_cons_of_mem v hm)
          · exact Or.inr he
      · simp only [utf16RoundTrip, hv, hlo, if_false] at h
        rcases List.mem_cons.mp h with h1 | h'
        · exact Or.inl (by simp [h1])
        · rcases mem_utf16RoundTrip (w :: rest) u h' with hm | he
          · exact Or.inl (List.mem_cons_of_mem v hm)
          · exact Or.inr he

theorem isHighSurr_isSurrogate {u : Nat} (h : isHighSurr u = true) :
    isSurrogate u = true := by
  simp only [isHighSurr, Bool.and_eq_true, decide_eq_true_eq] at h
  simp only [isSurrogate, Bool.and_eq_true, decide_eq_true_eq]
  omega

theorem isLowSurr_isSurrogate {u : Nat} (h : isLowSurr u = true) :
    isSurrogate u = true := by
  simp only [isLowSurr, Bool.and_eq_true, decide_eq_true_eq] at h
  simp only [isSurrogate, Bool.and_eq_true, decide_eq_true_eq]
  omega

/-- On surrogate-free text the UTF-8 round trip is the identity. -/
theorem utf16RoundTrip_of_no_surr :
    ∀ (s : List Nat), (∀ u ∈ s, isSurrogate u = false) →
      utf16RoundTrip s = s
  | [], _ => rfl
  | [v], h => by
    have := h v (by simp)
    simp [utf16RoundTrip, this]
  | v :: w :: rest, h => by
    have hv := h v (by simp)
    have hvh : ¬ isHighSurr v = true := fun hh =>
      by simp [isHighSurr_isSurrogate hh] at hv
    have hvl : ¬ isLowSurr v = true := fun hh =>
      by simp [isLowSurr_isSurrogate hh] at hv
    have hrest : ∀ u ∈ w :: rest, isSurrogate u = false := by
      intro u hu
      exact h u (List.mem_cons_of_mem v hu)
    simp only [utf16RoundTrip]
    rw [if_neg hvh, if_neg hvl, utf16RoundTrip_of_no_surr (w :: rest) hrest]

theorem sanitize_no_surr (s : List Nat) :
    ∀ u ∈ sanitizeMessageContent s, isSurrogate u = false := by
  intro u hu
  have := (List.mem_filter.mp hu).2
  simpa using this

theorem sanitize_no_dot (s : List Nat) :
    ∀ u ∈ sanitizeMessageContent s, u ≠ glyphDot := by
  intro u hu
  have hm : u ∈ utf16RoundTrip (removeDots s) :=
    (List.mem_filter.mp hu).1
  rcases mem_utf16RoundTrip _ u hm with hmem | hrep
  · have := (List.mem_filter.mp hmem).2
    simpa using this
  · subst hrep
    decide

/-- C3: the sanitizer is idempotent, on the normal path and on the
conservative fallback branch alike. -/
theorem sanitize_idempotent (s : List Nat) :
    sanitizeMessageContent (sanitizeMessageContent s) =
        sanitizeMessageContent s ∧
      sanitizeFallback (sanitizeFallback s) = sanitizeFallback s := by
  constructor
  · show removeSurrogates (utf16RoundTrip
      (removeDots (sanitizeMessageContent s))) = sanitizeMessageContent s
    have h1 : removeDots (sanitizeMessageContent s) =
        sanitizeMessageContent s := by
      apply List.filter_eq_self.mpr
      intro u hu
      simpa using sanitize_no_dot s u hu
    rw [h1, utf16RoundTrip_of_no_surr _ (sanitize_no_surr s)]
    apply List.filter_eq_self.mpr
    intro u hu
    simpa using sanitize_no_surr s u hu
  · show removeControls (removeSurrogates
      (removeDots (sanitizeFallback s))) = sanitizeFallback s
    have hmem : ∀ u ∈ sanitizeFallback s,
        (!(u == glyphDot)) = true ∧ (!(isSurrogate u)) = true ∧
          (!((u ≤ 0x1F) || (0x7F ≤ u && u ≤ 0x9F))) = true := by
      intro u hu
      have h3 := (List.mem_filter.mp hu).2
      have hu2 : u ∈ removeSurrogates (removeDots s) :=
        (List.mem_filter.mp hu).1
      have h2 := (List.mem_filter.mp hu2).2
      have hu1 : u ∈ removeDots s := (List.mem_filter.mp hu2).1
      have h1 := (List.mem_filter.mp hu1).2
      exact ⟨h1, h2, h3⟩
    have hd : removeDots (sanitizeFallback s) = sanitizeFallback s :=
      List.filter_eq_self.mpr fun u hu => (hmem u hu).1
    have hs : removeSurrogates (sanitizeFallback s) = sanitizeFallback s :=
      List.filter_eq_self.mpr fun u hu => (hmem u hu).2.1
    have hc : removeControls (sanitizeFallback s) = sanitizeFallback s :=
      List.filter_eq_self.mpr fun u hu => (hmem u hu).2.2
    rw [hd, hs, hc]


/-- An ASCII control character other than `\n` (10) and `\t` (9). -/
def isBannedCtrl (u : Nat) : Bool :=
  (u ≤ 0x1F && !(u == 9 || u == 10)) || u == 0x7F

/-- Spec-side transformation for the surrogate clause of the sanitizer
contract: remove exactly the code units in the surrogate range that are
not part of a valid surrogate pair; valid pairs are kept. -/
def specRemoveUnpaired : List Nat → List Nat
  | [] => []
  | [u] => if isSurrogate u then [] else [u]
  | u :: v :: rest =>
    if isHighSurr u && isLowSurr v then u :: v :: specRemoveUnpaired rest
    else if isSurrogate u then specRemoveUnpaired (v :: rest)
    else u :: specRemoveUnpaired (v :: rest)

/-- The sanitizer contract exactly as the spec states it: progress
markers removed, unpaired surrogates removed with valid pairs kept, and
ASCII control characters outside `\n`/`\t` removed. -/
def sanitizeSpecC4 (s : List Nat) : List Nat :=
  (specRemoveUnpaired (removeDots s)).filter fun u => !(isBannedCtrl u)

/-- Counterexample to C4: on `[U+0007, U+D83D, U+DE00, U+DC00]` the
code keeps the control character 0x07, deletes the valid surrogate pair
D83D DE00 and turns the lone low surrogate DC00 into U+FFFD, while the
claimed contract would drop 0x07, keep the pair and drop the lone
surrogate; even the control-character clause alone fails on `[0x07]`. -/
theorem sanitize_contract_counterexample :
    sanitizeMessageContent [0x07, 0xD83D, 0xDE00, 0xDC00] ≠
        sanitizeSpecC4 [0x07, 0xD83D, 0xDE00, 0xDC00] ∧
      ¬ (∀ u ∈ sanitizeMessageContent [0x07], isBannedCtrl u = false) := by
  decide

theorem isBannedCtrl_facts {u : Nat} (h : isBannedCtrl u = true) :
    isSurrogate u = false ∧ u ≠ replChar ∧ u ≠ glyphDot := by
  have hu : u ≤ 0x7F := by
    simp only [isBannedCtrl, Bool.or_eq_true, Bool.and_eq_true,
      decide_eq_true_eq, beq_iff_eq] at h
    rcases h with ⟨h1, _⟩ | h2
    · omega
    · omega
  refine ⟨?_, ?_, ?_⟩
  · simp only [isSurrogate, Bool.and_eq_true, decide_eq_true_eq,
      Bool.and_eq_false_iff]
    left
    simp only [decide_eq_false_iff_not]
    omega
  · intro hrepl
    rw [hrepl] at hu
    simp [replChar] at hu
  · intro hdot
    rw [hdot] at hu
    simp [glyphDot] at hu

theorem count_utf16RoundTrip :
    ∀ (s : List Nat) (u : Nat), isSurrogate u = false → u ≠ replChar →
      (utf16RoundTrip s).count u = s.count u
  | [], _, _, _ => rfl
  | [v], u, hs, hr => by
    by_cases hv : isSurrogate v = true
    · have huv : u ≠ v := fun he => by rw [he, hv] at hs; cases hs
      simp [utf16RoundTrip, hv, List.count_cons, List.count_nil, huv, hr]
    · simp [utf16RoundTrip, hv]
  | v :: w :: rest, u, hs, hr => by
    by_cases hv : isHighSurr v = true
    · have huv : u ≠ v := fun he => by
        rw [he, isHighSurr_isSurrogate hv] at hs; cases hs
      by_cases hw : isLowSurr w = true
      · have huw : u ≠ w := fun he => by
          rw [he, isLowSurr_isSurrogate hw] at hs; cases hs
        simp only [utf16RoundTrip, hv, hw, if_true]
        simp [List.count_cons, huv, huw,
          count_utf16RoundTrip rest u hs hr]
      · simp only [utf16RoundTrip, hv, hw, if_true, if_false]
        simp [List.count_cons, huv, hr,
          count_utf16RoundTrip (w :: rest) u hs hr]
    · by_cases hlo : isLowSurr v = true
      · have huv : u ≠ v := fun he => by
          rw [he, isLowSurr_isSurrogate hlo] at hs; cases hs
        simp only [utf16RoundTrip, hv, hlo, if_true, if_false]
        simp [List.count_cons, huv, hr,
          count_utf16RoundTrip (w :: rest) u hs hr]
      · simp only [utf16RoundTrip, hv, hlo, if_false]
        simp [List.count_cons, count_utf16RoundTrip (w :: rest) u hs hr]

/-- C4 amended: the sanitizer output contains no progress marker and no
surrogate code unit at all (lone surrogates having become U+FFFD and
valid pairs having been deleted by the final strip), while ASCII
control characters other than `\n`/`\t` are passed through unchanged
(with multiplicity) rather than removed. -/
theorem sanitize_contract_amended (s : List Nat) :
    (∀ u ∈ sanitizeMessageContent s, u ≠ glyphDot) ∧
      (∀ u ∈ sanitizeMessageContent s, isSurrogate u = false) ∧
      (∀ u : Nat, isBannedCtrl u = true →
        (sanitizeMessageContent s).count u = s.count u) := by
  refine ⟨sanitize_no_dot s, sanitize_no_surr s, ?_⟩
  intro u hu
  obtain ⟨hsurr, hrepl, hdot⟩ := isBannedCtrl_facts hu
  show (removeSurrogates (utf16RoundTrip (removeDots s))).count u =
    s.count u
  have h1 : (removeSurrogates (utf16RoundTrip (removeDots s))).count u =
      (utf16RoundTrip (removeDots s)).count u :=
    List.count_filter (by simp [hsurr])
  have h2 : (utf16RoundTrip (removeDots s)).count u =
      (removeDots s).count u :=
    count_utf16RoundTrip _ u hsurr hrepl
  have h3 : (removeDots s).count u = s.count u :=
    List.count_filter (by simp [hdot])
  rw [h1, h2, h3]

/-- Witness for the amended C4 at the bell character 0x07. -/
theorem sanitize_contract_amended_witness :
    isBannedCtrl 0x07 = true ∧
      (sanitizeMessageContent [0x07, 0xD800]).count 0x07 =
        List.count 0x07 [0x07, 0xD800] :=
  ⟨by decide, (sanitize_contract_amended [0x07, 0xD800]).2.2 0x07 (by decide)⟩


/-! ## Conversation model (ChatDrawer.tsx)

Messages carry a role (`user`/`model`), text, timestamp and status.
Persistence is `localStorage` under a per-question key, modelled as a
partial map from keys to message lists (the JSON round trip restores
the stored list unchanged). -/

inductive Role where
  | user
  | model
deriving DecidableEq

inductive MsgStatus where
  | streaming
  | done
  | error
deriving DecidableEq

structure ChatMsg where
  role : Role
  text : String
  timestamp : Nat
  status : MsgStatus
deriving DecidableEq

/-! ### Retry (retryLastMessage, lines 490-504 and 1287-1301)

`[...history].reverse().find(m => m.role === 'user')` finds the last
user message; `history.indexOf` yields its index; the filter drops
every model message at a later index; the kept history is saved and the
user text re-sent. -/

def lastUserIndexAux : List ChatMsg → Nat → Option Nat
  | [], _ => none
  | m :: rest, i =>
    match lastUserIndexAux rest (i + 1) with
    | some j => some j
    | none => if m.role = Role.user then some i else none

/-- Index of the most recent user message, if any. -/
def lastUserIndex (h : List ChatMsg) : Option Nat := lastUserIndexAux h 0

def retryFilterAux (i : Nat) : List ChatMsg → Nat → List ChatMsg
  | [], _ => []
  | m :: rest, j =>
    if m.role = Role.model ∧ i < j then retryFilterAux i rest (j + 1)
    else m :: retryFilterAux i rest (j + 1)

/-- The history kept by `retryLastMessage` (and persisted) before the
user text is re-sent: model messages after the last user message are
removed; the user message itself is kept. -/
def retryTrim (h : List ChatMsg) : List ChatMsg :=
  match lastUserIndex h with
  | none => h
  | some i => retryFilterAux i h 0

/-- The text `retryLastMessage` re-sends. -/
def retryResendText (h : List ChatMsg) : Option String :=
  match lastUserIndex h with
  | none => none
  | some i => (h[i]?).map fun m => m.text

def msgU1 : ChatMsg := ⟨.user, "u1", 1, .done⟩

def msgA1 : ChatMsg := ⟨.model, "a1", 2, .done⟩

def msgU2 : ChatMsg := ⟨.user, "u2", 3, .done⟩

def msgA2e : ChatMsg := ⟨.model, "a2", 4, .error⟩

/-- Counterexample to C5: on `[U1, A1, U2, A2(error)]` retry re-sends
the text of `U2`, but the persisted history before the new exchange is
`[U1, A1, U2]`, not `[U1, A1]`: the last user message is kept, so the
replay appends a duplicate of it. -/
theorem retry_trim_counterexample :
    retryTrim [msgU1, msgA1, msgU2, msgA2e] ≠ [msgU1, msgA1] ∧
      retryTrim [msgU1, msgA1, msgU2, msgA2e] = [msgU1, msgA1, msgU2] := by
  constructor
  · decide
  · decide

/-- C5 amended: on `[U1, A1, U2, A2(error)]`, retry re-sends exactly
the text of `U2`, and the persisted history at the moment before the
new exchange begins is `[U1, A1, U2]` — only the model messages after
the most recent user message are removed; the user message itself stays
and is then re-appended by the replayed send. -/
theorem retry_trims_amended (t1 t2 t3 t4 : String) (n1 n2 n3 n4 : Nat) :
    retryResendText [⟨.user, t1, n1, .done⟩, ⟨.model, t2, n2, .done⟩,
        ⟨.user, t3, n3, .done⟩, ⟨.model, t4, n4, .error⟩] = some t3 ∧
      retryTrim [⟨.user, t1, n1, .done⟩, ⟨.model, t2, n2, .done⟩,
          ⟨.user, t3, n3, .done⟩, ⟨.model, t4, n4, .error⟩] =
        [⟨.user, t1, n1, .done⟩, ⟨.model, t2, n2, .done⟩,
          ⟨.user, t3, n3, .done⟩] := by
  constructor
  · rfl
  · rfl


/-! ### Load effect (ChatDrawer.tsx lines 290-317 / 1049-1076)

The key is `qb_chat_${bankId}_${question.id}` when a bank id is given
and `qb_chat_${question.id}` otherwise; exactly one `getItem` is made;
a stored record is parsed and set as the history unchanged; otherwise a
welcome message is synthesized and saved. -/

/-- Storage key of a conversation. -/
def chatStorageKey (bankId : Option String) (qid : String) : String :=
  match bankId with
  | some b => "qb_chat_" ++ b ++ "_" ++ qid
  | none => "qb_chat_" ++ qid

/-- The synthesized greeting text. -/
def welcomeText (roleName : Option String)
    (isCorrect hasExplanation : Bool) : String :=
  "你好！我是你的" ++ roleName.getD "AI 助教" ++ "。我看这道题你答" ++
    (if isCorrect then "对了，真棒！" else "错了") ++ "。关于这道题的 **" ++
    (if hasExplanation then "知识点" else "内容") ++ "**，你有什么想问的吗？"

def welcomeMsg (roleName : Option String) (isCorrect hasExplanation : Bool)
    (now : Nat) : ChatMsg :=
  ⟨.model, welcomeText roleName isCorrect hasExplanation, now, .done⟩

/-- The load effect: read the single storage key; return the stored
history unchanged when present, else initialize the welcome message. -/
def loadChatHistory (store : String → Option (List ChatMsg))
    (bankId : Option String) (qid : String) (roleName : Option String)
    (isCorrect hasExplanation : Bool) (now : Nat) : List ChatMsg :=
  match store (chatStorageKey bankId qid) with
  | some h => h
  | none => [welcomeMsg roleName isCorrect hasExplanation now]

def streamingStored : ChatMsg := ⟨.model, "partial", 5, .streaming⟩

/-- Counterexample to C6: a conversation stored with a message still
marked `streaming` is loaded with that status intact — no message is
normalized to `error` on load. -/
theorem load_streaming_counterexample :
    ¬ (∀ m ∈ loadChatHistory
        (fun k => if k = "qb_chat_q1" then some [streamingStored] else none)
        none "q1" none true true 9,
        m.status ≠ MsgStatus.streaming) := by
  decide

/-- C6 amended: loading returns the stored message list exactly as
persisted, with no normalization: a message stored with status
`streaming` is surfaced still as `streaming` (it is also never resumed,
since nothing in the load path starts an exchange). -/
theorem load_returns_stored (store : String → Option (List ChatMsg))
    (bankId : Option String) (qid : String) (roleName : Option String)
    (isCorrect hasExplanation : Bool) (now : Nat) (stored : List ChatMsg)
    (h : store (chatStorageKey bankId qid) = some stored) :
    loadChatHistory store bankId qid roleName isCorrect hasExplanation now =
      stored := by
  simp [loadChatHistory, h]

/-- Witness for the amended C6: a stored streaming message survives the
load unchanged. -/
theorem load_returns_stored_witness :
    loadChatHistory
        (fun k => if k = "qb_chat_q1" then some [streamingStored] else none)
        none "q1" none true true 9 = [streamingStored] :=
  load_returns_stored _ none "q1" none true true 9 [streamingStored]
    (by decide)

def legacyMsg : ChatMsg := ⟨.user, "old", 1, .done⟩

/-- Counterexample to C7: with a record stored under the legacy key
`qb_chat_q1` only, a load with a bank id present reads only the
composite key `qb_chat_b1_q1`, finds nothing, and initializes a fresh
welcome message instead of returning the legacy record. -/
theorem load_legacy_counterexample :
    loadChatHistory
        (fun k => if k = "qb_chat_q1" then some [legacyMsg] else none)
        (some "b1") "q1" none true true 9 ≠ [legacyMsg] := by
  decide

/-- C7 amended: when the composite-key record is absent, the load does
not fall back to the legacy key: whatever may be stored under the
legacy key, the result is a fresh welcome message. -/
theorem load_no_legacy_fallback (store : String → Option (List ChatMsg))
    (b qid : String) (roleName : Option String)
    (isCorrect hasExplanation : Bool) (now : Nat)
    (habsent : store (chatStorageKey (some b) qid) = none) :
    loadChatHistory store (some b) qid roleName isCorrect hasExplanation
        now = [welcomeMsg roleName isCorrect hasExplanation now] := by
  simp [loadChatHistory, habsent]

/-- Witness for the amended C7: the legacy record is ignored. -/
theorem load_no_legacy_fallback_witness :
    loadChatHistory
        (fun k => if k = "qb_chat_q1" then some [legacyMsg] else none)
        (some "b1") "q1" none true true 9 =
      [welcomeMsg none true true 9] :=
  load_no_legacy_fallback _ "b1" "q1" none true true 9 (by decide)


/-! ### Send path (sendMessage, lines 361-487 / 1168-1284; streamChat,
aiClient.ts lines 121-163)

`sendMessage` bails out when the trimmed text is blank or an exchange
is in flight (`loading`); otherwise it appends and persists the user
message, appends a streaming placeholder, and routes to `streamChat`
when an API key is stored and to `mockStreamChat` otherwise.  On
success the assistant message becomes the accumulated deltas with
status `done` and the full history is persisted; on a thrown error the
placeholder is replaced by an error message which is persisted.
`streamChat` throws its configuration error before `fetch` when no key
is stored; the transport interaction itself is abstracted as an
`Except` outcome, with the count of HTTP requests made. -/

def configErrorText : String :=
  "API Key 未配置。请在设置中配置你的 DeepSeek API Key。"

def errorPrefixText : String := "连接 AI 失败："

/-- `streamChat`'s credential guard and transport: with no stored key
it fails with the configuration error before any request; with a key
it issues exactly one request whose outcome is `fetchOutcome`. -/
def streamChat (apiKey : Option String)
    (fetchOutcome : Except String (List String)) :
    Except String (List String) × Nat :=
  match apiKey with
  | none => (.error configErrorText, 0)
  | some _ => (fetchOutcome, 1)

/-- `mockStreamChat` slices its response into batches of three
characters and emits each as one delta. -/
def mockBatches : List Char → List (List Char)
  | [] => []
  | [c] => [[c]]
  | [c, d] => [[c, d]]
  | c :: d :: e :: rest => [c, d, e] :: mockBatches rest

def mockDeltas (response : String) : List String :=
  (mockBatches response.data).map fun l => String.mk l

theorem mockBatches_flatten : ∀ l : List Char, (mockBatches l).flatten = l
  | [] => rfl
  | [_] => rfl
  | [_, _] => rfl
  | c :: d :: e :: rest => by
    show ([c, d, e] :: mockBatches rest).flatten = c :: d :: e :: rest
    rw [List.flatten_cons, mockBatches_flatten rest]
    rfl

theorem foldl_strAppend_data (bs : List (List Char)) :
    ∀ acc : String,
      ((bs.map fun l => String.mk l).foldl (· ++ ·) acc).data =
        acc.data ++ bs.flatten := by
  induction bs with
  | nil => intro acc; simp
  | cons b bs ih =>
    intro acc
    simp only [List.map_cons, List.foldl_cons, List.flatten_cons]
    rw [ih]
    simp [String.data_append]

/-- The mock deltas reassemble to the mock response. -/
theorem mockDeltas_join (r : String) :
    (mockDeltas r).foldl (· ++ ·) "" = r := by
  apply String.ext
  rw [mockDeltas, foldl_strAppend_data, mockBatches_flatten]
  rfl

/-- JavaScript `text.trim()` on the whitespace the texts here use. -/
def isJsWs (c : Char) : Bool :=
  (c == ' ') || (c == '\t') || (c == '\n') || (c == '\r')

def trimS (s : String) : String :=
  String.mk (((s.data.dropWhile isJsWs).reverse.dropWhile isJsWs).reverse)

/-- Component state relevant to a send: the in-memory history, the
persisted history and the `loading` flag. -/
structure ChatState where
  history : List ChatMsg
  saved : List ChatMsg
  loading : Bool
deriving DecidableEq

/-- Observable outcome of one `sendMessage` call: the final state, the
number of HTTP requests issued, and whether the mock streamer ran. -/
structure SendOutcome where
  state : ChatState
  requests : Nat
  usedMock : Bool
deriving DecidableEq

/-- One full `sendMessage` call (delta-mode drawer; the snapshot-mode
copy has the identical guard and routing).  The streamed deltas are the
transport outcome for the real path and the mock batches for the mock
path; the net effect of the batcher on the placeholder (proved in the
batcher section) is that the final text is their concatenation. -/
def sendMessage (st : ChatState) (text : String) (apiKey : Option String)
    (fetchOutcome : Except String (List String)) (mockResp : String)
    (now : Nat) : SendOutcome :=
  if trimS text = "" ∨ st.loading = true then ⟨st, 0, false⟩
  else
    let userMsg : ChatMsg := ⟨.user, trimS text, now, .done⟩
    let newHistory := st.history ++ [userMsg]
    match apiKey with
    | some k =>
      match streamChat (some k) fetchOutcome with
      | (.ok deltas, n) =>
        let doneMsg : ChatMsg := ⟨.model, deltas.foldl (· ++ ·) "", now, .done⟩
        let finalHistory := newHistory ++ [doneMsg]
        ⟨⟨finalHistory, finalHistory, false⟩, n, false⟩
      | (.error e, n) =>
        let errMsg : ChatMsg := ⟨.model, errorPrefixText ++ e, now, .error⟩
        let finalHistory := newHistory ++ [errMsg]
        ⟨⟨finalHistory, finalHistory, false⟩, n, false⟩
    | none =>
      let doneMsg : ChatMsg :=
        ⟨.model, (mockDeltas mockResp).foldl (· ++ ·) "", now, .done⟩
      let finalHistory := newHistory ++ [doneMsg]
      ⟨⟨finalHistory, finalHistory, false⟩, 0, true⟩

/-- C8: a send while an exchange is in flight on the conversation is a
no-op: state (message list included) unchanged, no request issued,
nothing queued. -/
theorem send_inflight_noop (st : ChatState) (text : String)
    (apiKey : Option String) (fetchOutcome : Except String (List String))
    (mockResp : String) (now : Nat) (h : st.loading = true) :
    sendMessage st text apiKey fetchOutcome mockResp now = ⟨st, 0, false⟩ := by
  simp [sendMessage, h]

/-- Witness for C8: a concrete second send while loading. -/
theorem send_inflight_noop_witness :
    sendMessage ⟨[msgU1], [msgU1], true⟩ "hi" (some "k")
        (Except.ok ["x"]) "mock" 7 =
      ⟨⟨[msgU1], [msgU1], true⟩, 0, false⟩ :=
  send_inflight_noop ⟨[msgU1], [msgU1], true⟩ "hi" (some "k")
    (Except.ok ["x"]) "mock" 7 rfl

/-- Counterexample to C10: with no stored credential a send does not
fail — it routes to the mock streamer and completes, appending a model
message with status `done`. -/
theorem no_credential_send_counterexample :
    ¬ (∀ m ∈ (sendMessage ⟨[], [], false⟩ "hi" none (Except.ok [])
        "mk" 7).state.history,
        ¬ (m.role = Role.model ∧ m.status = MsgStatus.done)) := by
  decide

/-- C10 amended: `streamChat` itself does raise the configuration error
before issuing any HTTP request when no credential is stored, but
`sendMessage` never reaches it in that case: it checks the stored key
first and routes to the mock streamer, so the send completes with a
`done` assistant message carrying the mock response, zero network
requests, and no error message persisted. -/
theorem no_credential_uses_mock (st : ChatState) (text : String)
    (fetchOutcome : Except String (List String)) (mockResp : String)
    (now : Nat) (hnl : st.loading = false) (ht : trimS text ≠ "") :
    streamChat none fetchOutcome = (.error configErrorText, 0) ∧
      sendMessage st text none fetchOutcome mockResp now =
        ⟨⟨st.history ++ [⟨.user, trimS text, now, .done⟩,
            ⟨.model, mockResp, now, .done⟩],
          st.history ++ [⟨.user, trimS text, now, .done⟩,
            ⟨.model, mockResp, now, .done⟩], false⟩, 0, true⟩ := by
  refine ⟨rfl, ?_⟩
  simp [sendMessage, hnl, ht, mockDeltas_join]

/-- Witness for the amended C10. -/
theorem no_credential_uses_mock_witness :
    streamChat none (Except.ok []) = (.error configErrorText, 0) ∧
      sendMessage ⟨[], [], false⟩ "hi" none (Except.ok []) "Hello" 7 =
        ⟨⟨[⟨.user, trimS "hi", 7, .done⟩, ⟨.model, "Hello", 7, .done⟩],
          [⟨.user, trimS "hi", 7, .done⟩, ⟨.model, "Hello", 7, .done⟩],
          false⟩, 0, true⟩ := by
  have h := no_credential_uses_mock ⟨[], [], false⟩ "hi" (Except.ok [])
    "Hello" 7 rfl (by decide)
  simpa using h

end QuizPipeline
